import Mathlib

/-!
# Verification development for the RPN evaluator (`rpn.js`, most complete variant)

Shallow embedding of the final evaluator variant of the repository
(`tokenize`, `evaluateRPN`, `stepVerbose`, `precompileTokens`, `findBlockEnd`,
and the CLI's history update), together with theorems settling the claims
about it.

Modelling conventions:
* JavaScript numbers are modelled as `ℚ`.  The transcendental operators
  (`sin`, `cos`, `tan`, `log`, `exp`, `sqrt`, `^`/`pow`) are not representable
  over `ℚ` and are omitted from the operator alphabet; no claim below depends
  on them.  Division is total on `ℚ` with `q / 0 = 0` whereas JS produces
  `Infinity`; no claim below is decided by division by zero.
* JS arrays used as registers (`Array(10).fill(0)`) are `List ℚ`; writing past
  the end extends the array, holes read back as `0` (matching `arr[n] ?? 0`).
* A thrown `Error` aborts the whole evaluation; results are
  `Res.ok σ / Res.fail / Res.timeout`, the last marking fuel exhaustion of the
  fuelled recursion (the JS recursion is unbounded and can diverge on
  recursive user functions).
* Tokens are a typed alphabet: the string classification that `resolveToken`
  performs with regular expressions (`/^s\d+$/`, `/^r(\d+)?(,\d+)?$/`, …) is
  reflected in the `Tok` constructors.  Function names are assumed not to
  collide with operator symbols or register syntax (in the source a function
  named `"+"` would shadow the operator, since the function map is consulted
  first).
-/

namespace RPN

/-- JS `Math.round` on a rational: `⌊q + 1/2⌋`, computed with integer
arithmetic only (`⌊(2·num + den) / (2·den)⌋` with a flooring division). -/
def jsRound (q : ℚ) : ℤ := Int.fdiv (2 * q.num + q.den) (2 * q.den)

/-- Numeric display formatting of `fmt` (and of the inline
`Math.abs(v - Math.round(v)) < 1e-12 ? Math.round(v) : v` copies in
`stepVerbose`): a value within `1e-12` of an integer collapses to that
integer.  `|q - r| < 10⁻¹²` is tested as `|num - r·den| · 10¹² < den`. -/
def fmtQ (q : ℚ) : ℚ :=
  let r := jsRound q
  if (q.num - r * q.den).natAbs * 1000000000000 < q.den then (r : ℚ) else q

/-- Truncation of a rational toward zero (`Int.tdiv` truncates; `den > 0`). -/
def ratTrunc (q : ℚ) : ℤ := q.num.tdiv q.den

/-- JS `%` (remainder with the sign of the dividend:
`a - b * trunc(a / b)`); `b = 0` gives `NaN` in JS, modelled as `0` here (no
claim depends on it). -/
def jsRem (a b : ℚ) : ℚ :=
  if b = 0 then 0 else a - b * (ratTrunc (a / b) : ℚ)

/-- JS truthiness of a number: any nonzero value is true (`truthy`). -/
def truthyQ (q : ℚ) : Bool := decide (q ≠ 0)

/-- Read an index of a JS array of numbers: `arr[n] ?? 0`. -/
def getIdx (l : List ℚ) (n : ℕ) : ℚ := l.getD n 0

/-- Write an index of a JS array of numbers: `arr[n] = v`.  Writing past the
end extends the array; the holes created read back as `0`. -/
def setIdx (l : List ℚ) (n : ℕ) (v : ℚ) : List ℚ :=
  if n < l.length then l.set n v
  else l ++ List.replicate (n - l.length) 0 ++ [v]

/-- Operator symbols of the evaluator's `switch` (the `ℚ`-representable
fragment; see the module comment). -/
inductive Op
  | add | sub | mul | div | mod
  | pow2
  | gt | lt | ge | le | eq | ne
  | land | lor | lnot
  | round | floor | ceil | abs
  | min | max
  | clamp
  | dnor
  deriving DecidableEq, Repr

/-- Arity of each operator (`UN_OPS` have 1, `BIN_OPS` 2, `clamp` 3). -/
def opArity : Op → ℕ
  | .lnot | .round | .floor | .ceil | .abs | .dnor | .pow2 => 1
  | .clamp => 3
  | _ => 2

/-- The `apply(op, arr)` table of `stepVerbose`: arguments in scan order
(`arr[0]` is the leftmost/deepest argument). -/
def applyStep : Op → List ℚ → ℚ
  | .add, a :: b :: _ => a + b
  | .sub, a :: b :: _ => a - b
  | .mul, a :: b :: _ => a * b
  | .div, a :: b :: _ => a / b
  | .mod, a :: b :: _ => jsRem a b
  | .pow2, a :: _ => a * a
  | .gt, a :: b :: _ => if a > b then 1 else 0
  | .lt, a :: b :: _ => if a < b then 1 else 0
  | .ge, a :: b :: _ => if a ≥ b then 1 else 0
  | .le, a :: b :: _ => if a ≤ b then 1 else 0
  | .eq, a :: b :: _ => if a = b then 1 else 0
  | .ne, a :: b :: _ => if a = b then 0 else 1
  | .land, a :: b :: _ => if a ≠ 0 ∧ b ≠ 0 then 1 else 0
  | .lor, a :: b :: _ => if a ≠ 0 ∨ b ≠ 0 then 1 else 0
  | .lnot, a :: _ => if a ≠ 0 then 0 else 1
  | .round, a :: _ => (jsRound a : ℚ)
  | .floor, a :: _ => ((Rat.floor a : ℤ) : ℚ)
  | .ceil, a :: _ => ((Rat.ceil a : ℤ) : ℚ)
  | .abs, a :: _ => |a|
  | .min, a :: b :: _ => min a b
  | .max, a :: b :: _ => max a b
  | .clamp, v :: u :: l :: _ => max l (min u v)
  | .dnor, a :: _ => jsRem (jsRem a 360 + 360) 360
  | _, _ => 0

/-- The evaluator's own operator `switch` on the stack (head = top of stack):
each case pops its operands exactly as the source does (`pop2` pops the right
operand first) and pushes one result; too few operands is a stack underflow. -/
def evalOpStack : Op → List ℚ → Option (List ℚ)
  | .add, b :: a :: r => some ((a + b) :: r)
  | .sub, b :: a :: r => some ((a - b) :: r)
  | .mul, b :: a :: r => some ((a * b) :: r)
  | .div, b :: a :: r => some ((a / b) :: r)
  | .mod, b :: a :: r => some (jsRem a b :: r)
  | .pow2, a :: r => some ((a * a) :: r)
  | .gt, b :: a :: r => some ((if a > b then 1 else 0) :: r)
  | .lt, b :: a :: r => some ((if a < b then 1 else 0) :: r)
  | .ge, b :: a :: r => some ((if a ≥ b then 1 else 0) :: r)
  | .le, b :: a :: r => some ((if a ≤ b then 1 else 0) :: r)
  | .eq, b :: a :: r => some ((if a = b then 1 else 0) :: r)
  | .ne, b :: a :: r => some ((if a = b then 0 else 1) :: r)
  | .land, b :: a :: r => some ((if a ≠ 0 ∧ b ≠ 0 then 1 else 0) :: r)
  | .lor, b :: a :: r => some ((if a ≠ 0 ∨ b ≠ 0 then 1 else 0) :: r)
  | .lnot, a :: r => some ((if a ≠ 0 then 0 else 1) :: r)
  | .round, a :: r => some ((jsRound a : ℚ) :: r)
  | .floor, a :: r => some (((Rat.floor a : ℤ) : ℚ) :: r)
  | .ceil, a :: r => some (((Rat.ceil a : ℤ) : ℚ) :: r)
  | .abs, a :: r => some (|a| :: r)
  | .min, b :: a :: r => some (min a b :: r)
  | .max, b :: a :: r => some (max a b :: r)
  | .clamp, mn :: mx :: v :: r => some (max mn (min mx v) :: r)
  | .dnor, a :: r => some ((jsRem (jsRem a 360 + 360) 360) :: r)
  | _, _ => none

/-- Lexical tokens after the regular-expression classification performed by
`resolveToken`.  `recall ri si` covers `r`/`rN`/`rN,k` (a bare `r` parses as
`ri = 1`); `noop` covers the MSFS no-op tokens `Boolean`, `Number`, `,`. -/
inductive Tok
  | num (q : ℚ)
  | op (o : Op)
  | param (n : ℕ)
  | recall (ri : ℕ) (si : Option ℕ)
  | store (n : ℕ)
  | load (n : ℕ)
  | spstore (n : ℕ)
  | spload (n : ℕ)
  | simRead (pfx key : String)
  | simWrite (pfx key : String)
  | ifOpen
  | elseOpen
  | braceClose
  | fn (name : String)
  | noop
  deriving DecidableEq, Repr

/-- A user function definition `{name, params, rpn}`; `body` is the token list
of the `rpn` source string (the source tokenizes `f.rpn` at each call). -/
structure Fn where
  name : String
  params : ℕ
  body : List Tok
  deriving DecidableEq, Repr

/-- The two-level SimVar store `{prefix: {key: value}}`, plus the legacy
top-level numeric entries consulted by the `prefix === 'A'` compatibility
fallback. -/
structure Sim where
  entries : List (String × List (String × ℚ))
  legacy : List (String × ℚ)
  deriving DecidableEq, Repr

/-- Assoc-list lookup (JS object property read). -/
def alookup {α : Type} (l : List (String × α)) (k : String) : Option α :=
  (l.find? (fun p => p.1 == k)).map Prod.snd

/-- Assoc-list upsert (JS object property write). -/
def aset {α : Type} (l : List (String × α)) (k : String) (v : α) : List (String × α) :=
  if (l.find? (fun p => p.1 == k)).isSome
  then l.map (fun p => if p.1 == k then (k, v) else p)
  else l ++ [(k, v)]

/-- `getSimValue`: read of `(PREFIX:KEY)`, with the legacy top-level fallback
for prefix `A` and default `0` (also used by `stepVerbose.tokenValue`). -/
def getSimValue (sim : Sim) (pfx key : String) : ℚ :=
  let dict := (alookup sim.entries pfx).getD []
  match alookup dict key with
  | some v => v
  | none =>
    if pfx = "A" then
      match alookup sim.legacy key with
      | some v => v
      | none => 0
    else 0

/-- `setSimValue`: write of `(>PREFIX:KEY)` (creates the prefix dictionary on
demand, upserts the key). -/
def setSimValue (sim : Sim) (pfx key : String) (v : ℚ) : Sim :=
  { sim with entries := aset sim.entries pfx (aset ((alookup sim.entries pfx).getD []) key v) }

/-- Mutable evaluation state of one `evaluateRPN` call: the stack (head = top),
the persistent registers `s0..s9` (`vars`), the session registers `sp0..sp9`
(`regs`), the SimVar store and its dirty flag. -/
structure St where
  stack : List ℚ
  vars : List ℚ
  regs : List ℚ
  sim : Sim
  dirty : Bool
  deriving DecidableEq, Repr

/-- Read-only inputs of one `evaluateRPN` call: the function table, the result
history (`r` tokens) and the parameter bindings (`pN` tokens). -/
structure Env where
  fns : List Fn
  results : List (List ℚ)
  params : ℕ → Option ℚ

/-- Function lookup through `fnMap = new Map(functions.map(f => [f.name, f]))`:
a later duplicate name overwrites an earlier one. -/
def fnLookup (fns : List Fn) (nm : String) : Option Fn :=
  fns.foldl (fun acc f => if f.name == nm then some f else acc) none

/-- Substitution of the captured arguments for the `pN` placeholders of a
function body (`ps[parseInt(tok.slice(1),10)-1] ?? 0`; `p0` reads `ps[-1]`,
hence `0`). -/
def substParam (ps : List ℚ) : Tok → Tok
  | .param 0 => .num 0
  | .param (k+1) => .num (ps.getD k 0)
  | t => t

/-- `findBlockEnd`: scan from `openIndex + 1` tracking `if{`/`else{` nesting
depth, returning the index of the matching `}` (`none` models the thrown
"missing closing brace" error). -/
def findBlockEndGo : List Tok → ℕ → ℕ → Option ℕ
  | [], _, _ => none
  | t :: r, i, depth =>
    match t with
    | .ifOpen | .elseOpen => findBlockEndGo r (i+1) (depth+1)
    | .braceClose => if depth = 1 then some i else findBlockEndGo r (i+1) (depth-1)
    | _ => findBlockEndGo r (i+1) depth

def findBlockEnd (toks : List Tok) (openIdx : ℕ) : Option ℕ :=
  findBlockEndGo (toks.drop (openIdx + 1)) (openIdx + 1) 1

/-- `toks.slice(a, b)`. -/
def sliceToks (toks : List Tok) (a b : ℕ) : List Tok := (toks.take b).drop a

/-- Result of an evaluation: normal completion, a thrown error, or fuel
exhaustion of the model (the JS recursion is unbounded). -/
inductive Res
  | ok (σ : St)
  | fail
  | timeout
  deriving DecidableEq, Repr

/-- The evaluator loop `runTokens`/`resolveToken` of the final `evaluateRPN`
variant: an explicit cursor `i` over the token list, each token mapping to the
source's branch in order (numbers, `pN`, `r…`, `sN`/`lN`, `spN`/`lpN`,
SimVars, conditionals, functions, operator switch).  `fuel` decreases on every
step and on every recursive sub-evaluation. -/
def runTokens (env : Env) : ℕ → List Tok → ℕ → St → Res
  | 0, _, _, _ => .timeout
  | fuel+1, toks, i, σ =>
    match toks.get? i with
    | none => .ok σ
    | some t =>
      match t with
      | .num q => runTokens env fuel toks (i+1) { σ with stack := q :: σ.stack }
      | .param n => runTokens env fuel toks (i+1)
          { σ with stack := (env.params n).getD 0 :: σ.stack }
      | .recall ri si =>
        match ri with
        | 0 => .fail
        | ri'+1 =>
          match env.results.get? ri' with
          | none => .fail
          | some res =>
            match si with
            | none => runTokens env fuel toks (i+1) { σ with stack := res.reverse ++ σ.stack }
            | some 0 => .fail
            | some (si'+1) =>
              match res.get? si' with
              | none => .fail
              | some v => runTokens env fuel toks (i+1) { σ with stack := v :: σ.stack }
      | .store n =>
        match σ.stack with
        | [] => .fail
        | v :: s => runTokens env fuel toks (i+1) { σ with stack := s, vars := setIdx σ.vars n v }
      | .load n => runTokens env fuel toks (i+1) { σ with stack := getIdx σ.vars n :: σ.stack }
      | .spstore n => runTokens env fuel toks (i+1)
          { σ with regs := setIdx σ.regs n (σ.stack.headD 0) }
      | .spload n => runTokens env fuel toks (i+1) { σ with stack := getIdx σ.regs n :: σ.stack }
      | .simRead pfx key => runTokens env fuel toks (i+1)
          { σ with stack := getSimValue σ.sim pfx key :: σ.stack }
      | .simWrite pfx key =>
        match σ.stack with
        | [] => .fail
        | v :: s => runTokens env fuel toks (i+1)
            { σ with stack := s, sim := setSimValue σ.sim pfx key v, dirty := true }
      | .ifOpen =>
        match findBlockEnd toks i with
        | none => .fail
        | some endIf =>
          match toks.get? (endIf + 1) with
          | some .elseOpen =>
            match findBlockEnd toks (endIf + 1) with
            | none => .fail
            | some endElse =>
              match σ.stack with
              | [] => .fail
              | c :: s =>
                if truthyQ c then
                  match runTokens env fuel (sliceToks toks (i+1) endIf) 0 { σ with stack := s } with
                  | .ok σ' => runTokens env fuel toks (endElse + 1) σ'
                  | e => e
                else
                  match runTokens env fuel (sliceToks toks (endIf+2) endElse) 0
                      { σ with stack := s } with
                  | .ok σ' => runTokens env fuel toks (endElse + 1) σ'
                  | e => e
          | _ =>
            match σ.stack with
            | [] => .fail
            | c :: s =>
              if truthyQ c then
                match runTokens env fuel (sliceToks toks (i+1) endIf) 0 { σ with stack := s } with
                | .ok σ' => runTokens env fuel toks (endIf + 1) σ'
                | e => e
              else runTokens env fuel toks (endIf + 1) { σ with stack := s }
      | .elseOpen =>
        match findBlockEnd toks i with
        | none => .fail
        | some endElse => runTokens env fuel toks (endElse + 1) σ
      | .braceClose => .fail
      | .fn nm =>
        match fnLookup env.fns nm with
        | none => .fail
        | some f =>
          if σ.stack.length < f.params then .fail
          else
            let ps := (σ.stack.take f.params).reverse
            let body := f.body.map (substParam ps)
            match runTokens { env with params := fun _ => none } fuel body 0
                ⟨[], σ.vars, List.replicate 10 0, σ.sim, false⟩ with
            | .ok σs => runTokens env fuel toks (i+1)
                { σ with stack := σs.stack ++ σ.stack.drop f.params,
                         vars := σs.vars, sim := σs.sim }
            | e => e
      | .noop => runTokens env fuel toks (i+1) σ
      | .op o =>
        match evalOpStack o σ.stack with
        | none => .fail
        | some s' => runTokens env fuel toks (i+1) { σ with stack := s' }

/-- `evaluateRPN`: fresh stack and session registers, persistent registers and
SimVars supplied by the caller. -/
def evaluateRPN (env : Env) (fuel : ℕ) (toks : List Tok) (vars : List ℚ) (sim : Sim) : Res :=
  runTokens env fuel toks 0 ⟨[], vars, List.replicate 10 0, sim, false⟩

/-- Empty environment (no functions, no history, no parameters). -/
def env0 : Env := ⟨[], [], fun _ => none⟩

/-- `Array(10).fill(0)`. -/
def zeros10 : List ℚ := List.replicate 10 0

/-- An empty SimVar store. -/
def sim0 : Sim := ⟨[], []⟩

example : evaluateRPN env0 9 [.num 5, .num 3, .op .max] zeros10 sim0 =
    .ok ⟨[5], zeros10, zeros10, sim0, false⟩ := by decide

example : evaluateRPN env0 9 [.num 5, .store 0, .load 0] zeros10 sim0 =
    .ok ⟨[5], setIdx zeros10 0 5, zeros10, sim0, false⟩ := by decide

example : evaluateRPN env0 9
    [.num 1, .ifOpen, .num 11, .braceClose, .elseOpen, .num 22, .braceClose]
    zeros10 sim0 = .ok ⟨[11], zeros10, zeros10, sim0, false⟩ := by decide

/-! ## The Step Reducer (`stepVerbose`) -/

/-- The display context handed to `stepVerbose` (it receives its own copies of
the registers and SimVars plus the function table; colour/marker flags do not
affect the reduction and are omitted). -/
structure StepCtx where
  vars : List ℚ
  regs : List ℚ
  sim : Sim
  fns : List Fn

/-- `tokenIsValue`: the tokens a reduction scan treats as value segments
(numbers, persistent loads, session loads, SimVar reads). -/
def tokenIsValue : Tok → Bool
  | .num _ | .load _ | .spload _ | .simRead _ _ => true
  | _ => false

/-- `tokenValue`: numeric value of a value segment (`vars[n]||0`,
`regs[n]||0`, SimVar read with the legacy fallback).  Non-value tokens never
reach this in the scan; they map to `0` here. -/
def tokenValue (ctx : StepCtx) : Tok → ℚ
  | .num q => q
  | .load n => getIdx ctx.vars n
  | .spload n => getIdx ctx.regs n
  | .simRead pfx key => getSimValue ctx.sim pfx key
  | _ => 0

/-- `arity(op)` of the Step Reducer: `UN_OPS ↦ 1`, `BIN_OPS ↦ 2`,
`clamp ↦ 3`, `if{ ↦ 1`, a known function its declared parameter count, and
everything else `0` (such tokens are never reduced and simply remain). -/
def stepArity (fns : List Fn) : Tok → ℕ
  | .op o => opArity o
  | .ifOpen => 1
  | .fn nm => match fnLookup fns nm with | some f => f.params | none => 0
  | _ => 0

/-- The next redex chosen by one scan of `stepVerbose`'s main loop. -/
inductive Redex
  | opR (hs : ℕ) (o : Op) (args : List ℚ) (oi : ℕ)
  | fnR (hs : ℕ) (f : Fn) (args : List ℚ) (oi : ℕ)
  | ifR (hs : ℕ) (cond : ℚ) (oi : ℕ)
  deriving DecidableEq, Repr

/-- One left-to-right scan maintaining the value-segment stack
(`segStack`, head = most recently pushed segment, entries `(startIndex,
value)`): value tokens push a segment, an arity-0 token is skipped with the
segments kept, `if{` is reducible with one queued segment, any other operator
or function token with `k` queued segments.  The first reducible token is the
redex. -/
def scanGo (fns : List Fn) (ctx : StepCtx) :
    List Tok → ℕ → List (ℕ × ℚ) → Option Redex
  | [], _, _ => none
  | t :: r, i, segs =>
    if tokenIsValue t then scanGo fns ctx r (i+1) ((i, tokenValue ctx t) :: segs)
    else
      let k := stepArity fns t
      if k = 0 then scanGo fns ctx r (i+1) segs
      else
        match t with
        | .ifOpen =>
          match segs with
          | [] => scanGo fns ctx r (i+1) segs
          | (st, v) :: _ => some (.ifR st v i)
        | .op o =>
          if k ≤ segs.length then
            match (segs.take k).reverse with
            | (st, v) :: rest => some (.opR st o (v :: rest.map Prod.snd) i)
            | [] => none
          else scanGo fns ctx r (i+1) segs
        | .fn nm =>
          match fnLookup fns nm with
          | some f =>
            if k ≤ segs.length then
              match (segs.take k).reverse with
              | (st, v) :: rest => some (.fnR st f (v :: rest.map Prod.snd) i)
              | [] => none
            else scanGo fns ctx r (i+1) segs
          | none => scanGo fns ctx r (i+1) segs
        | _ => scanGo fns ctx r (i+1) segs

/-- Entry point of the scan: whole token list, index `0`, empty segment
stack. -/
def scanRedex (fns : List Fn) (ctx : StepCtx) (toks : List Tok) : Option Redex :=
  scanGo fns ctx toks 0 []

/-- Outcome of performing one reduction: the new token list, or a thrown
error / fuel exhaustion inside a recursive sub-evaluation. -/
inductive StepOut
  | next (toks : List Tok)
  | fail
  | timeout
  deriving DecidableEq, Repr

/-- Perform the chosen reduction on the flat token list.  An operator redex
replaces `args + operator` by one formatted result token.  A function redex
sub-evaluates the substituted body on copies of the context (fresh history)
and splices in its top of stack.  An `if{` redex sub-evaluates the chosen
branch and splices in the branch's whole result stack, consuming through the
matched closing brace (of the `else` block when present). -/
def applyRedex (ctx : StepCtx) (efuel : ℕ) (toks : List Tok) : Redex → StepOut
  | .opR hs o args oi =>
    .next (toks.take hs ++ [Tok.num (fmtQ (applyStep o args))] ++ toks.drop (oi+1))
  | .fnR hs f args oi =>
    let body := f.body.map (substParam args)
    match evaluateRPN ⟨ctx.fns, [], fun _ => none⟩ efuel body ctx.vars ctx.sim with
    | .ok σs =>
      .next (toks.take hs ++ [Tok.num (fmtQ (σs.stack.headD 0))] ++ toks.drop (oi+1))
    | .fail => .fail
    | .timeout => .timeout
  | .ifR hs cond oi =>
    match findBlockEnd toks oi with
    | none => .fail
    | some endIf =>
      let hasElse : Bool := decide (toks.get? (endIf + 1) = some Tok.elseOpen)
      match findBlockEnd toks (endIf + 1), hasElse with
      | none, true => .fail
      | endElseOpt, _ =>
        let takeIf := cond ≠ 0
        let body :=
          if takeIf then sliceToks toks (oi+1) endIf
          else if hasElse then sliceToks toks (endIf+2) (endElseOpt.getD 0)
          else []
        let he := if hasElse then endElseOpt.getD 0 else endIf
        match evaluateRPN ⟨ctx.fns, [], fun _ => none⟩ efuel body ctx.vars ctx.sim with
        | .ok σs =>
          .next (toks.take hs ++ σs.stack.reverse.map (fun v => Tok.num (fmtQ v)) ++
            toks.drop (he+1))
        | .fail => .fail
        | .timeout => .timeout

/-- Final outcome of the Step Reducer. -/
inductive StepRes
  | done (toks : List Tok)
  | fail
  | timeout
  deriving DecidableEq, Repr

/-- The `while (true)` reduction loop of `stepVerbose`: find the next redex
(stop when none exists), reduce, stop when a single token remains.  `sfuel`
bounds the number of reduction steps, `efuel` the recursive
sub-evaluations. -/
def stepLoop (ctx : StepCtx) (efuel : ℕ) : ℕ → List Tok → StepRes
  | 0, _ => .timeout
  | sfuel+1, toks =>
    match scanRedex ctx.fns ctx toks with
    | none => .done toks
    | some rdx =>
      match applyRedex ctx efuel toks rdx with
      | .fail => .fail
      | .timeout => .timeout
      | .next toks' =>
        if toks'.length = 1 then .done toks' else stepLoop ctx efuel sfuel toks'

/-- `stepVerbose`, stripped of its printing: the pure reduction process on the
flattened token list. -/
def stepVerbose (ctx : StepCtx) (efuel sfuel : ℕ) (toks : List Tok) : StepRes :=
  stepLoop ctx efuel sfuel toks

/-! ## The tokenizer -/

/-- JS `/\s/` on the characters occurring here (space, tab, newline,
carriage return). -/
def isWsChar (c : Char) : Bool := c == ' ' || c == '\t' || c == '\n' || c == '\r'

/-- The characters `'(){}'` that stop a default token run. -/
def isDelimChar (c : Char) : Bool := c == '(' || c == ')' || c == '{' || c == '}'

/-- The depth-counted parenthesis scan: from the character after the opening
`(`, stop after its balanced closing `)` (or at the end of input). -/
def parenScanGo : List Char → ℕ → ℕ → ℕ
  | [], j, _ => j
  | c :: r, j, d =>
    if d = 0 then j
    else parenScanGo r (j+1) (if c = '(' then d+1 else if c = ')' then d-1 else d)

/-- The default maximal run: advance while the character is neither
whitespace nor one of `'(){}'`. -/
def runScanGo : List Char → ℕ → ℕ
  | [], j => j
  | c :: r, j => if isWsChar c || isDelimChar c then j else runScanGo r (j+1)

/-- `src.slice(a, b)` on characters. -/
def sliceChars (src : List Char) (a b : ℕ) : List Char := (src.take b).drop a

/-- The `while (i < src.length)` loop of `tokenize`, with explicit fuel: each
iteration handles whitespace, a parenthesis group, `if{`, `else{`, `}` or a
default run, exactly as the source.  `none` models fuel exhaustion, i.e. the
inability of the loop to terminate within any bound. -/
def tokLoop : ℕ → List Char → ℕ → List (List Char) → Option (List (List Char))
  | 0, _, _, _ => none
  | fuel+1, src, i, acc =>
    match src.get? i with
    | none => some acc
    | some ch =>
      if isWsChar ch then tokLoop fuel src (i+1) acc
      else if ch = '(' then
        let j := parenScanGo (src.drop (i+1)) (i+1) 1
        tokLoop fuel src j (acc ++ [sliceChars src i j])
      else if (src.drop i).take 3 = ['i', 'f', '{'] then
        tokLoop fuel src (i+3) (acc ++ [['i', 'f', '{']])
      else if (src.drop i).take 5 = ['e', 'l', 's', 'e', '{'] then
        tokLoop fuel src (i+5) (acc ++ [['e', 'l', 's', 'e', '{']])
      else if ch = '}' then tokLoop fuel src (i+1) (acc ++ [['}']])
      else
        let j := runScanGo (src.drop i) i
        tokLoop fuel src j (acc ++ [sliceChars src i j])

/-- `tokenize(src)`: run the loop from position `0` and drop empty tokens
(`tokens.filter(Boolean)`). -/
def tokenize (fuel : ℕ) (src : List Char) : Option (List (List Char)) :=
  (tokLoop fuel src 0 []).map (List.filter (fun t => ¬ t.isEmpty))

example : tokenize 9 "5 3 +".toList = some ["5".toList, "3".toList, "+".toList] := by decide

example : tokenize 20 "1 if\x7b 11 \x7d else\x7b 22 \x7d".toList =
    some ["1".toList, "if\x7b".toList, "11".toList, "\x7d".toList,
          "else\x7b".toList, "22".toList, "\x7d".toList] := by decide

/-! ## Precompilation and history -/

/-- Expand every token of a list with `f` and concatenate the expansions,
failing when any single expansion fails. -/
def concatExpand (f : Tok → Option (List Tok)) : List Tok → Option (List Tok)
  | [] => some []
  | t :: r =>
    match f t, concatExpand f r with
    | some ts, some rs => some (ts ++ rs)
    | _, _ => none

/-- `precompileTokens` (per token): replace a function-name token by its body
tokens stripped of the `pN` placeholders, recursively expanding nested
function references to a fixed point (the source iterates `while (changed)`
and recurses; the fuel bounds the expansion depth, `none` marking divergence
on recursive definitions); every other token stands. -/
def precompileTok (fns : List Fn) : ℕ → Tok → Option (List Tok)
  | 0, _ => none
  | fuel+1, t =>
    match t with
    | .fn nm =>
      match fnLookup fns nm with
      | none => some [t]
      | some f =>
        concatExpand (precompileTok fns fuel)
          (f.body.filter (fun x => match x with | .param _ => false | _ => true))
    | t => some [t]

def precompileTokens (fns : List Fn) (fuel : ℕ) (toks : List Tok) : Option (List Tok) :=
  concatExpand (precompileTok fns fuel) toks

/-- A token of the pure value/operator fragment: a number literal or an
operator.  Expressions in this fragment touch no registers, parameters,
history, SimVars, conditionals or functions. -/
def pureTok : Tok → Bool
  | .num _ => true
  | .op _ => true
  | _ => false

/-- The Core Evaluator's single pass restricted to the pure fragment: numbers
push, operators transform the stack through the same `evalOpStack` switch as
`runTokens`; any other token is out of the fragment.  The lemma
`runTokens_pure` proves this agrees with `runTokens` on the fragment. -/
def evalPure : List Tok → List ℚ → Option (List ℚ)
  | [], s => some s
  | .num q :: r, s => evalPure r (q :: s)
  | .op o :: r, s =>
    match evalOpStack o s with
    | some s' => evalPure r s'
    | none => none
  | _ :: _, _ => none

/-- The Core Evaluator on the pure fragment with the Step Reducer's display
rounding applied to every operator result (numbers are pushed verbatim; each
operator result passes through `fmtQ`, exactly as each reduction step of
`stepVerbose` re-emits its result as a formatted token). -/
def evalPureRounded : List Tok → List ℚ → Option (List ℚ)
  | [], s => some s
  | .num q :: r, s => evalPureRounded r (q :: s)
  | .op o :: r, s =>
    if h : opArity o ≤ s.length then
      evalPureRounded r (fmtQ (applyStep o ((s.take (opArity o)).reverse)) :: s.drop (opArity o))
    else none
  | _ :: _, _ => none

/-- Number of operator tokens in a list (each reduction step of the Step
Reducer removes at least one on the pure fragment). -/
def opCount (toks : List Tok) : ℕ := (toks.filter (fun t => match t with | .op _ => true | _ => false)).length

/-- `isPureRTokenExpression`: the tokenized expression is exactly one
`r`/`rN`/`rN,k` recall token. -/
def isPureRTokenExpression : List Tok → Bool
  | [.recall _ _] => true
  | _ => false

/-- The CLI's history update after a successful evaluation: prepend the result
stack (array order) and keep at most 8 entries, except that a pure-recall
expression leaves history untouched. -/
def updateHistory (exprToks : List Tok) (stackArr : List ℚ) (hist : List (List ℚ)) :
    List (List ℚ) :=
  if isPureRTokenExpression exprToks then hist else (stackArr :: hist).take 8

/-- The segment stack built by scanning a run of value segments: pushing the
values of `V` starting at index `i` on top of `segs`. -/
def pushSegs : List ℚ → ℕ → List (ℕ × ℚ) → List (ℕ × ℚ)
  | [], _, segs => segs
  | v :: V', i, segs => pushSegs V' (i+1) ((i, v) :: segs)

example : stepVerbose ⟨zeros10, zeros10, sim0, []⟩ 9 9 [.num 2, .num 3, .op .max] =
    .done [.num 3] := by decide

example : stepVerbose ⟨zeros10, zeros10, sim0, []⟩ 9 9 [.num 5, .store 0] =
    .done [.num 5, .store 0] := by decide

/-! ## Helper lemmas -/

/-- Characterization of the evaluator's operator switch: with at least
`opArity o` stack values it pops them and pushes `applyStep o` of the popped
values in depth order (deepest first), otherwise it underflows. -/
theorem evalOpStack_char (o : Op) (s : List ℚ) :
    evalOpStack o s =
      if opArity o ≤ s.length then
        some (applyStep o ((s.take (opArity o)).reverse) :: s.drop (opArity o))
      else none := by
  cases o <;> rcases s with _ | ⟨x, _ | ⟨y, _ | ⟨z, r⟩⟩⟩ <;>
    simp [evalOpStack, applyStep, opArity]

theorem take_append_left {α : Type} (t s : List α) (k : ℕ) (h : k ≤ t.length) :
    (t ++ s).take k = t.take k := by
  rw [List.take_append_eq_append_take, Nat.sub_eq_zero_of_le h, List.take_zero,
    List.append_nil]

theorem drop_append_left {α : Type} (t s : List α) (k : ℕ) (h : k ≤ t.length) :
    (t ++ s).drop k = t.drop k ++ s := by
  rw [List.drop_append_eq_append_drop, Nat.sub_eq_zero_of_le h, List.drop_zero]

/-- Frame property of the pure-fragment evaluation: a computation that
succeeds from stack `t` never reaches below `t`, so it runs identically above
any deeper суффикс `s`. -/
theorem evalPure_frame :
    ∀ (B : List Tok) (t s r : List ℚ), evalPure B t = some r →
      evalPure B (t ++ s) = some (r ++ s) := by
  intro B
  induction B with
  | nil => intro t s r h; simp [evalPure] at h ⊢; simp [h]
  | cons hd tl ih =>
    intro t s r h
    cases hd with
    | num q =>
      simp only [evalPure] at h ⊢
      exact ih (q :: t) s r h
    | op o =>
      simp only [evalPure] at h ⊢
      rcases hop : evalOpStack o t with _ | t'
      · rw [hop] at h; simp at h
      · rw [hop] at h
        have hk : opArity o ≤ t.length := by
          by_contra hk
          rw [evalOpStack_char, if_neg hk] at hop
          exact Option.noConfusion hop
        have ht' : t' = applyStep o ((t.take (opArity o)).reverse) :: t.drop (opArity o) := by
          rw [evalOpStack_char, if_pos hk] at hop
          exact (Option.some.inj hop).symm
        have : evalOpStack o (t ++ s) =
            some ((applyStep o ((t.take (opArity o)).reverse) :: t.drop (opArity o)) ++ s) := by
          rw [evalOpStack_char, if_pos (le_trans hk (by simp)),
            take_append_left _ _ _ hk, drop_append_left _ _ _ hk]
          simp
        rw [this]
        rw [ht'] at h
        exact ih _ s r h
    | _ => simp [evalPure] at h

/-- A token satisfying `pureTok` is a number or an operator. -/
theorem pureTok_cases (t : Tok) (h : pureTok t = true) :
    (∃ q, t = Tok.num q) ∨ (∃ o, t = Tok.op o) := by
  cases t <;>
    first
      | exact Or.inl ⟨_, rfl⟩
      | exact Or.inr ⟨_, rfl⟩
      | simp [pureTok] at h

/-- Bridge between the full evaluator and the pure-fragment evaluation: on a
token list from the pure fragment, `runTokens` (with enough fuel) succeeds
exactly as `evalPure` does and touches no registers or SimVars. -/
theorem runTokens_pure (env : Env) :
    ∀ (fuel : ℕ) (toks : List Tok) (i : ℕ) (S R vars regs : List ℚ) (sim : Sim) (d : Bool),
      (∀ t ∈ toks, pureTok t = true) → i ≤ toks.length → toks.length < fuel + i →
      evalPure (toks.drop i) S = some R →
      runTokens env fuel toks i ⟨S, vars, regs, sim, d⟩ = .ok ⟨R, vars, regs, sim, d⟩ := by
  intro fuel
  induction fuel with
  | zero =>
    intro toks i S R vars regs sim d _ hi hlen _
    omega
  | succ n ih =>
    intro toks i S R vars regs sim d hp hi hlen heval
    rcases Nat.lt_or_ge i toks.length with hlt | hge
    · have hdrop : toks.drop i = toks[i] :: toks.drop (i+1) := List.drop_eq_getElem_cons hlt
      have hpure : pureTok toks[i] = true := hp _ (toks.getElem_mem hlt)
      rcases pureTok_cases _ hpure with ⟨q, htok⟩ | ⟨o, htok⟩
      · have hget : toks[i]? = some (Tok.num q) := by
          rw [List.getElem?_eq_getElem hlt, htok]
        rw [hdrop, htok] at heval
        simp only [evalPure] at heval
        simp only [runTokens, List.get?_eq_getElem?, hget]
        exact ih toks (i+1) (q :: S) R vars regs sim d hp hlt (by omega) heval
      · have hget : toks[i]? = some (Tok.op o) := by
          rw [List.getElem?_eq_getElem hlt, htok]
        rw [hdrop, htok] at heval
        simp only [evalPure] at heval
        rcases hop : evalOpStack o S with _ | s'
        · rw [hop] at heval; simp at heval
        · rw [hop] at heval
          simp only [runTokens, List.get?_eq_getElem?, hget, hop]
          exact ih toks (i+1) s' R vars regs sim d hp hlt (by omega) heval
    · have hdrop : toks.drop i = [] := List.drop_eq_nil_of_le hge
      rw [hdrop] at heval
      simp only [evalPure, Option.some.injEq] at heval
      have hget : toks[i]? = none := List.getElem?_eq_none hge
      simp only [runTokens, List.get?_eq_getElem?, hget]
      rw [heval]

/-- Substitution is the identity on pure tokens (they contain no `pN`). -/
theorem substParam_pure (ps : List ℚ) (t : Tok) (h : pureTok t = true) :
    substParam ps t = t := by
  cases t <;> simp [pureTok] at h <;> rfl

theorem map_substParam_pure (ps : List ℚ) (body : List Tok)
    (h : ∀ t ∈ body, pureTok t = true) : body.map (substParam ps) = body := by
  induction body with
  | nil => rfl
  | cons hd tl ih =>
    have hhd := h hd (by simp)
    rw [List.map_cons, substParam_pure ps hd hhd, ih (fun t ht => h t (by simp [ht]))]

/-- A pure token precompiles to itself. -/
theorem precompileTok_pure (fns : List Fn) (fuel : ℕ) (t : Tok) (h : pureTok t = true) :
    precompileTok fns (fuel+1) t = some [t] := by
  cases t <;> simp [pureTok] at h <;> rfl

/-- A list of pure tokens precompiles to itself. -/
theorem precompileTokens_pure (fns : List Fn) (fuel : ℕ) :
    ∀ (body : List Tok), (∀ t ∈ body, pureTok t = true) →
      precompileTokens fns (fuel+1) body = some body := by
  intro body
  induction body with
  | nil => intro _; rfl
  | cons hd tl ih =>
    intro h
    have hh := precompileTok_pure fns fuel hd (h hd (by simp))
    have ht := ih (fun t ht => h t (by simp [ht]))
    simp only [precompileTokens, concatExpand] at ht ⊢
    rw [hh, ht]
    rfl

/-- One unfolding of `runTokens` at a function token whose arity check
passes: capture the arguments, substitute, sub-evaluate the body on a fresh
stack and session registers, then push the sub-result and continue. -/
theorem runTokens_fn_step (env : Env) (fuel i : ℕ) (toks : List Tok) (σ : St)
    (nm : String) (f : Fn) (h1 : toks[i]? = some (Tok.fn nm))
    (h2 : fnLookup env.fns nm = some f) (h3 : ¬ (σ.stack.length < f.params)) :
    runTokens env (fuel+1) toks i σ =
      match runTokens { env with params := fun _ => none } fuel
          (f.body.map (substParam ((σ.stack.take f.params).reverse))) 0
          ⟨[], σ.vars, List.replicate 10 0, σ.sim, false⟩ with
      | .ok σs => runTokens env fuel toks (i+1)
          { σ with stack := σs.stack ++ σ.stack.drop f.params,
                   vars := σs.vars, sim := σs.sim }
      | .fail => .fail
      | .timeout => .timeout := by
  simp only [runTokens, List.get?_eq_getElem?, h1, h2, h3, if_false]
  cases runTokens { env with params := fun _ => none } fuel
      (f.body.map (substParam ((σ.stack.take f.params).reverse))) 0
      ⟨[], σ.vars, List.replicate 10 0, σ.sim, false⟩ <;> rfl

/-! ### Step Reducer scan lemmas (pure fragment) -/

/-- Scanning a run of number tokens pushes one segment per number. -/
theorem scanGo_nums (fns : List Fn) (ctx : StepCtx) :
    ∀ (V : List ℚ) (rest : List Tok) (i : ℕ) (segs : List (ℕ × ℚ)),
      scanGo fns ctx (V.map Tok.num ++ rest) i segs =
        scanGo fns ctx rest (i + V.length) (pushSegs V i segs) := by
  intro V
  induction V with
  | nil => intro rest i segs; simp [pushSegs]
  | cons v V' ih =>
    intro rest i segs
    simp only [List.map_cons, List.cons_append, scanGo, tokenIsValue, tokenValue, if_true,
      List.append_eq]
    rw [ih rest (i+1) ((i, v) :: segs)]
    have harith : i + 1 + V'.length = i + (V'.length + 1) := by omega
    rw [harith]
    rfl

/-- The segment stack of a number run is the reversed enumeration. -/
theorem pushSegs_eq : ∀ (V : List ℚ) (i : ℕ) (segs : List (ℕ × ℚ)),
    pushSegs V i segs = (List.enumFrom i V).reverse ++ segs := by
  intro V
  induction V with
  | nil => intro i segs; simp [pushSegs]
  | cons v V' ih =>
    intro i segs
    simp only [pushSegs, List.enumFrom_cons, List.reverse_cons]
    rw [ih (i+1) ((i, v) :: segs)]
    simp

theorem enumFrom_drop {α : Type} : ∀ (V : List α) (m i : ℕ),
    (List.enumFrom i V).drop m = List.enumFrom (i + m) (V.drop m) := by
  intro V
  induction V with
  | nil => intro m i; simp
  | cons v V' ih =>
    intro m i
    cases m with
    | zero => simp
    | succ m' =>
      simp only [List.enumFrom_cons, List.drop_succ_cons]
      rw [ih m' (i+1)]
      have : i + 1 + m' = i + (m' + 1) := by omega
      rw [this]

theorem take_reverse_eq {α : Type} (l : List α) (k : ℕ) :
    l.reverse.take k = (l.drop (l.length - k)).reverse := by
  have h1 : (l.reverse.take k).reverse = l.reverse.reverse.drop (l.reverse.length - k) :=
    List.reverse_take
  rw [List.reverse_reverse, List.length_reverse] at h1
  calc l.reverse.take k = ((l.reverse.take k).reverse).reverse := by rw [List.reverse_reverse]
    _ = (l.drop (l.length - k)).reverse := by rw [h1]

/-- Every operator has arity at least 1. -/
theorem opArity_pos (o : Op) : opArity o ≠ 0 := by
  cases o <;> simp [opArity]

/-- The scan at an operator token with enough queued segments: the redex is
that operator with the last `arity` segments as arguments. -/
theorem scanGo_at_op (fns : List Fn) (ctx : StepCtx) (o : Op) (rest : List Tok) (i : ℕ)
    (segs : List (ℕ × ℚ)) (hk : opArity o ≤ segs.length)
    (w : ℕ × ℚ) (rest' : List (ℕ × ℚ))
    (hsegs : (segs.take (opArity o)).reverse = w :: rest') :
    scanGo fns ctx (Tok.op o :: rest) i segs =
      some (.opR w.1 o (w.2 :: rest'.map Prod.snd) i) := by
  simp only [scanGo, tokenIsValue, stepArity, opArity_pos o, hk, hsegs, if_false, if_true,
    Bool.false_eq_true, if_neg (opArity_pos o), if_pos hk]

/-- The characterization of one scan over `nums ++ op ∷ rest` with enough
numbers queued: the first such operator is the redex, its arguments are the
last `arity` numbers, the highlight starts at the first argument. -/
theorem scanRedex_pure_op (fns : List Fn) (ctx : StepCtx) (V : List ℚ) (o : Op)
    (rest : List Tok) (hk : opArity o ≤ V.length) :
    scanRedex fns ctx (V.map Tok.num ++ Tok.op o :: rest) =
      some (.opR (V.length - opArity o) o (V.drop (V.length - opArity o)) V.length) := by
  unfold scanRedex
  rw [scanGo_nums, pushSegs_eq]
  simp only [Nat.zero_add, List.append_nil]
  have hlen : ((List.enumFrom 0 V).reverse).length = V.length := by
    simp [List.enumFrom_length]
  have hdroplen : (V.drop (V.length - opArity o)).length = opArity o := by
    rw [List.length_drop]; omega
  obtain ⟨w, W', hW⟩ : ∃ w W', V.drop (V.length - opArity o) = w :: W' := by
    rcases hV : V.drop (V.length - opArity o) with _ | ⟨w, W'⟩
    · rw [hV] at hdroplen
      simp at hdroplen
      exact absurd hdroplen.symm (opArity_pos o)
    · exact ⟨w, W', rfl⟩
  have htake : (((List.enumFrom 0 V).reverse).take (opArity o)).reverse =
      (V.length - opArity o, w) :: List.enumFrom (V.length - opArity o + 1) W' := by
    rw [take_reverse_eq, List.reverse_reverse, List.enumFrom_length, enumFrom_drop, hW]
    simp [List.enumFrom_cons]
  rw [scanGo_at_op fns ctx o rest V.length ((List.enumFrom 0 V).reverse)
    (by rw [hlen]; exact hk) _ _ htake]
  have hsnd : (List.enumFrom (V.length - opArity o + 1) W').map Prod.snd = W' :=
    List.enumFrom_map_snd _ _
  rw [hsnd, ← hW]

/-- A scan of a pure number list finds no redex. -/
theorem scanRedex_nums_none (fns : List Fn) (ctx : StepCtx) (V : List ℚ) :
    scanRedex fns ctx (V.map Tok.num) = none := by
  unfold scanRedex
  have := scanGo_nums fns ctx V [] 0 []
  rw [List.append_nil] at this
  rw [this]
  rfl

/-! ### Rounded-core evaluation lemmas (pure fragment) -/

/-- Number tokens push their values (deepest first) onto the stack. -/
theorem evalPureRounded_nums : ∀ (V : List ℚ) (rest : List Tok) (s : List ℚ),
    evalPureRounded (V.map Tok.num ++ rest) s = evalPureRounded rest (V.reverse ++ s) := by
  intro V
  induction V with
  | nil => intro rest s; simp
  | cons v V' ih =>
    intro rest s
    simp only [List.map_cons, List.cons_append, evalPureRounded, List.append_eq]
    rw [ih rest (v :: s)]
    simp

theorem opCount_nums : ∀ V : List ℚ, opCount (V.map Tok.num) = 0 := by
  intro V
  induction V with
  | nil => rfl
  | cons v V' ih => simpa [opCount, List.filter_cons] using ih

theorem opCount_append (A B : List Tok) : opCount (A ++ B) = opCount A + opCount B := by
  simp [opCount, List.filter_append]

theorem opCount_cons_num (x : ℚ) (rest : List Tok) :
    opCount (Tok.num x :: rest) = opCount rest := by
  simp [opCount, List.filter_cons]

theorem opCount_cons_op (o : Op) (rest : List Tok) :
    opCount (Tok.op o :: rest) = opCount rest + 1 := by
  simp [opCount, List.filter_cons]

/-- Every pure token list is a number run, or a number run followed by the
first operator and a pure tail. -/
theorem pure_decomp : ∀ (toks : List Tok), (∀ t ∈ toks, pureTok t = true) →
    (∃ V : List ℚ, toks = V.map Tok.num) ∨
    (∃ (V : List ℚ) (o : Op) (rest : List Tok),
      toks = V.map Tok.num ++ Tok.op o :: rest ∧
      (∀ t ∈ rest, pureTok t = true)) := by
  intro toks
  induction toks with
  | nil => intro _; exact Or.inl ⟨[], rfl⟩
  | cons t r ih =>
    intro hp
    rcases pureTok_cases t (hp t (by simp)) with ⟨q, rfl⟩ | ⟨o, rfl⟩
    · rcases ih (fun x hx => hp x (by simp [hx])) with ⟨V, rfl⟩ | ⟨V, o, rest, rfl, hrest⟩
      · exact Or.inl ⟨q :: V, rfl⟩
      · exact Or.inr ⟨q :: V, o, rest, rfl, hrest⟩
    · exact Or.inr ⟨[], o, r, rfl, fun x hx => hp x (by simp [hx])⟩

/-- An all-numbers token list evaluates to its reversed value list. -/
theorem nums_eval (V S : List ℚ) (he : evalPureRounded (V.map Tok.num) [] = some S) :
    V = S.reverse := by
  have h := evalPureRounded_nums V [] []
  rw [List.append_nil] at h
  rw [h] at he
  simp only [evalPureRounded, List.append_nil, Option.some.injEq] at he
  rw [← he, List.reverse_reverse]

/-- A single pure token whose evaluation succeeds is a number. -/
theorem pure_success_singleton (t : Tok) (S : List ℚ) (hp : pureTok t = true)
    (he : evalPureRounded [t] [] = some S) : ∃ q, t = Tok.num q := by
  rcases pureTok_cases t hp with ⟨q, rfl⟩ | ⟨o, rfl⟩
  · exact ⟨q, rfl⟩
  · exfalso
    simp only [evalPureRounded] at he
    have hno : ¬ (opArity o ≤ ([] : List ℚ).length) := by
      have := opArity_pos o
      simp only [List.length_nil]
      omega
    rw [dif_neg hno] at he
    exact Option.noConfusion he

/-- The splice performed by an operator reduction: arguments and operator
replaced by one formatted result token. -/
theorem reduce_op_splice (ctx : StepCtx) (efuel : ℕ) (V : List ℚ) (o : Op)
    (rest : List Tok) (hk : opArity o ≤ V.length) :
    applyRedex ctx efuel (V.map Tok.num ++ Tok.op o :: rest)
        (.opR (V.length - opArity o) o (V.drop (V.length - opArity o)) V.length) =
      .next ((V.take (V.length - opArity o)).map Tok.num ++
        Tok.num (fmtQ (applyStep o (V.drop (V.length - opArity o)))) :: rest) := by
  simp only [applyRedex]
  have ht : (V.map Tok.num ++ Tok.op o :: rest).take (V.length - opArity o) =
      (V.take (V.length - opArity o)).map Tok.num := by
    have hle : V.length - opArity o ≤ (V.map Tok.num).length := by
      rw [List.length_map]
      exact Nat.sub_le _ _
    rw [take_append_left _ _ _ hle, List.map_take]
  have hd : (V.map Tok.num ++ Tok.op o :: rest).drop (V.length + 1) = rest := by
    rw [List.drop_append_eq_append_drop]
    simp
  rw [ht, hd]
  simp

/-- One operator reduction preserves the rounded-core evaluation. -/
theorem evalPureRounded_reduce (V : List ℚ) (o : Op) (rest : List Tok)
    (hk : opArity o ≤ V.length) :
    evalPureRounded (V.map Tok.num ++ Tok.op o :: rest) [] =
      evalPureRounded ((V.take (V.length - opArity o)).map Tok.num ++
        Tok.num (fmtQ (applyStep o (V.drop (V.length - opArity o)))) :: rest) [] := by
  rw [evalPureRounded_nums, evalPureRounded_nums]
  simp only [List.append_nil]
  have h1 : (V.reverse.take (opArity o)).reverse = V.drop (V.length - opArity o) := by
    rw [take_reverse_eq, List.reverse_reverse]
  have h2 : V.reverse.drop (opArity o) = (V.take (V.length - opArity o)).reverse := by
    have h3 : (V.take (V.length - opArity o)).reverse =
        V.reverse.drop (V.length - (V.length - opArity o)) := List.reverse_take
    rw [h3]
    congr 1
    omega
  simp only [evalPureRounded]
  rw [dif_pos (by simpa using hk), h1, h2]

/-- The main induction: on a pure token list whose rounded-core evaluation
succeeds with stack `S`, the reduction loop terminates (within one step more
than the number of operators) on the token spelling of `S`. -/
theorem stepLoop_pure (ctx : StepCtx) (efuel : ℕ) :
    ∀ (n : ℕ) (toks : List Tok) (S : List ℚ),
      opCount toks ≤ n → (∀ t ∈ toks, pureTok t = true) →
      evalPureRounded toks [] = some S →
      stepLoop ctx efuel (n+1) toks = .done (S.reverse.map Tok.num) := by
  intro n
  induction n with
  | zero =>
    intro toks S hc hp he
    rcases pure_decomp toks hp with ⟨V, rfl⟩ | ⟨V, o, rest, rfl, hrest⟩
    · simp only [stepLoop, scanRedex_nums_none]
      rw [← nums_eval V S he]
    · exfalso
      rw [opCount_append] at hc
      simp [opCount, List.filter_cons, opCount_nums] at hc
  | succ n ih =>
    intro toks S hc hp he
    rcases pure_decomp toks hp with ⟨V, rfl⟩ | ⟨V, o, rest, rfl, hrest⟩
    · simp only [stepLoop, scanRedex_nums_none]
      rw [← nums_eval V S he]
    · have hk : opArity o ≤ V.length := by
        by_contra hnk
        rw [evalPureRounded_nums] at he
        simp only [List.append_nil, evalPureRounded] at he
        rw [dif_neg (by simpa using hnk)] at he
        exact Option.noConfusion he
      have he' : evalPureRounded ((V.take (V.length - opArity o)).map Tok.num ++
          Tok.num (fmtQ (applyStep o (V.drop (V.length - opArity o)))) :: rest) [] =
          some S := by
        rw [← evalPureRounded_reduce V o rest hk]
        exact he
      have hp' : ∀ t ∈ (V.take (V.length - opArity o)).map Tok.num ++
          Tok.num (fmtQ (applyStep o (V.drop (V.length - opArity o)))) :: rest,
          pureTok t = true := by
        intro t ht
        rcases List.mem_append.mp ht with hl | hr
        · rcases List.mem_map.mp hl with ⟨q, _, rfl⟩
          rfl
        · rcases List.mem_cons.mp hr with rfl | hmem
          · rfl
          · exact hrest t hmem
      have hc' : opCount ((V.take (V.length - opArity o)).map Tok.num ++
          Tok.num (fmtQ (applyStep o (V.drop (V.length - opArity o)))) :: rest) ≤ n := by
        rw [opCount_append, opCount_nums, opCount_cons_op] at hc
        rw [opCount_append, opCount_nums, opCount_cons_num]
        omega
      simp only [stepLoop, scanRedex_pure_op ctx.fns ctx V o rest hk,
        reduce_op_splice ctx efuel V o rest hk]
      by_cases h1 : ((V.take (V.length - opArity o)).map Tok.num ++
          Tok.num (fmtQ (applyStep o (V.drop (V.length - opArity o)))) :: rest).length = 1
      · rw [if_pos h1]
        obtain ⟨t, heq⟩ := List.length_eq_one.mp h1
        rw [heq] at he' hp'
        obtain ⟨q, rfl⟩ := pure_success_singleton t S (hp' t (by simp)) he'
        have hS : S = [q] := by
          have := nums_eval [q] S (by simpa using he')
          simpa using this.symm
        rw [heq, hS]
        rfl
      · rw [if_neg h1]
        exact ih _ S hc' hp' he'

/-! ## Claim theorems -/

/-- C1 counterexample: on the expression `5 s0` — which the Core Evaluator
completes successfully with final stack `[]` (the `5` stored into register 0)
— the Step Reducer never reduces anything: the store token is not a value and
has arity 0, so it is skipped and the final token list is still `5 s0`, two
tokens, which cannot equal the empty final stack element-for-element. -/
theorem step_reducer_core_disagree_on_store :
    stepVerbose ⟨zeros10, zeros10, sim0, []⟩ 9 9 [Tok.num 5, Tok.store 0] =
      .done [Tok.num 5, Tok.store 0] ∧
    evaluateRPN env0 9 [Tok.num 5, Tok.store 0] zeros10 sim0 =
      .ok ⟨[], setIdx zeros10 0 5, zeros10, sim0, false⟩ ∧
    [Tok.num 5, Tok.store 0].length ≠ ([] : List ℚ).length := by
  refine ⟨by decide, by decide, by decide⟩

/-- C1 amended: restricted to expressions of number and operator tokens (the
fragment the reduction is driven purely by the token list on — store, load,
parameter, history, SimVar, conditional and function tokens are left in place
or consult state), and with the Core Evaluator modified to pass every
operator result through the display rounding `fmtQ` (the reducer re-emits
each result as a formatted token, snapping values within `1e-12` of an
integer): whenever that rounded evaluation terminates successfully with stack
`S`, the Step Reducer terminates within `opCount + 1` steps and its final
token list is exactly `S`, element for element in order (bottom of stack
first). -/
theorem step_reducer_matches_rounded_core (ctx : StepCtx) (efuel : ℕ)
    (toks : List Tok) (S : List ℚ)
    (hpure : ∀ t ∈ toks, pureTok t = true)
    (heval : evalPureRounded toks [] = some S) :
    stepVerbose ctx efuel (opCount toks + 1) toks = .done (S.reverse.map Tok.num) :=
  stepLoop_pure ctx efuel (opCount toks) toks S (le_refl _) hpure heval

/-- C1 witness: the expression `2 3 max` (one operator) reduces in one step
to the single token `3`, the rounded core's final stack. -/
theorem step_reducer_matches_rounded_core_witness :
    ((∀ t ∈ [Tok.num 2, Tok.num 3, Tok.op .max], pureTok t = true) ∧
      evalPureRounded [Tok.num 2, Tok.num 3, Tok.op .max] [] = some [3]) ∧
    stepVerbose ⟨zeros10, zeros10, sim0, []⟩ 0
      (opCount [Tok.num 2, Tok.num 3, Tok.op .max] + 1)
      [Tok.num 2, Tok.num 3, Tok.op .max] =
      .done (([3] : List ℚ).reverse.map Tok.num) :=
  ⟨⟨by decide, by decide⟩,
    step_reducer_matches_rounded_core ⟨zeros10, zeros10, sim0, []⟩ 0
      [Tok.num 2, Tok.num 3, Tok.op .max] [3] (by decide) (by decide)⟩

/-- C10: executing a session-register store token `spN` on an empty evaluation
stack is not a stack-underflow error: register `N` is set to `0` (the value of
`stack.length ? stack.at(-1) : 0`) and the stack stays empty — while a genuine
popping token such as the persistent store `sN` on an empty stack is fatal. -/
theorem spstore_empty_stack_writes_zero (env : Env) (fuel n : ℕ) (vars regs : List ℚ)
    (sim : Sim) (d : Bool) :
    runTokens env (fuel+2) [Tok.spstore n] 0 ⟨[], vars, regs, sim, d⟩ =
      .ok ⟨[], vars, setIdx regs n 0, sim, d⟩ ∧
    runTokens env (fuel+1) [Tok.store n] 0 ⟨[], vars, regs, sim, d⟩ = .fail := by
  constructor <;> simp [runTokens]

/-- C5 counterexample: evaluating `5 s12` — a persistent-store token with
register index `12`, outside `0..9` — does not abort with an error; it
succeeds, extending the register array so that slot 12 holds `5`. -/
theorem store_out_of_range_succeeds :
    evaluateRPN env0 5 [Tok.num 5, Tok.store 12] zeros10 sim0 =
      .ok ⟨[], setIdx zeros10 12 5, zeros10, sim0, false⟩ ∧
    evaluateRPN env0 5 [Tok.num 5, Tok.store 12] zeros10 sim0 ≠ .fail := by
  constructor <;> decide

/-- C5 amended: in the most complete evaluator variant the register tokens
perform no range check at all: for every index `n` (inside or outside `0..9`)
`sN` pops and writes slot `n`, `lN` pushes `vars[n] ?? 0`, `spN` copies the
stack top (or `0`) into slot `n`, and `lpN` pushes `regs[n] ?? 0`; none of
them raises an error. -/
theorem register_tokens_never_range_check (env : Env) (fuel n : ℕ) (v : ℚ) (S : List ℚ)
    (vars regs : List ℚ) (sim : Sim) (d : Bool) :
    runTokens env (fuel+2) [Tok.store n] 0 ⟨v :: S, vars, regs, sim, d⟩ =
      .ok ⟨S, setIdx vars n v, regs, sim, d⟩ ∧
    runTokens env (fuel+2) [Tok.load n] 0 ⟨S, vars, regs, sim, d⟩ =
      .ok ⟨getIdx vars n :: S, vars, regs, sim, d⟩ ∧
    runTokens env (fuel+2) [Tok.spstore n] 0 ⟨S, vars, regs, sim, d⟩ =
      .ok ⟨S, vars, setIdx regs n (S.headD 0), sim, d⟩ ∧
    runTokens env (fuel+2) [Tok.spload n] 0 ⟨S, vars, regs, sim, d⟩ =
      .ok ⟨getIdx regs n :: S, vars, regs, sim, d⟩ := by
  refine ⟨?_, ?_, ?_, ?_⟩ <;> simp [runTokens]

/-- C4: a persistent-register store token `sN` pops the stack top and writes
the popped value into register `N`; a load token `lN` pushes a copy without
removing it from storage; and concretely, starting from all-zero persistent
registers, `5 s0 l0` yields final stack `[5]` with persistent register 0
equal to `5`. -/
theorem persistent_store_load (env : Env) (fuel n : ℕ) (v : ℚ) (S : List ℚ)
    (vars regs : List ℚ) (sim : Sim) (d : Bool) :
    runTokens env (fuel+2) [Tok.store n] 0 ⟨v :: S, vars, regs, sim, d⟩ =
      .ok ⟨S, setIdx vars n v, regs, sim, d⟩ ∧
    runTokens env (fuel+2) [Tok.load n] 0 ⟨S, vars, regs, sim, d⟩ =
      .ok ⟨getIdx vars n :: S, vars, regs, sim, d⟩ ∧
    evaluateRPN env0 9 [Tok.num 5, Tok.store 0, Tok.load 0] zeros10 sim0 =
      .ok ⟨[5], setIdx zeros10 0 5, zeros10, sim0, false⟩ ∧
    getIdx (setIdx zeros10 0 5) 0 = 5 := by
  refine ⟨?_, ?_, ?_, ?_⟩
  · simp [runTokens]
  · simp [runTokens]
  · decide
  · decide

/-- C3 counterexample: on the stack produced by `1 2 3` (top of stack `3`),
`clamp` yields `3 = max(3, min(2, 1))` — first-popped value as the lower
bound — not the `2 = max(1, min(2, 3))` that the claimed pop order
(value first, upper second, lower third) would give. -/
theorem clamp_pop_order_counterexample :
    evaluateRPN env0 9 [Tok.num 1, Tok.num 2, Tok.num 3, Tok.op .clamp] zeros10 sim0 =
      .ok ⟨[3], zeros10, zeros10, sim0, false⟩ ∧
    evaluateRPN env0 9 [Tok.num 1, Tok.num 2, Tok.num 3, Tok.op .clamp] zeros10 sim0 ≠
      .ok ⟨[2], zeros10, zeros10, sim0, false⟩ := by
  constructor <;> decide

/-- C3 amended: for every stack holding at least three values the 3-ary
`clamp` operator pops the lower bound first, the upper bound second and the
value third, and pushes `max(lower, min(upper, value))`; the Step Reducer's
`apply` table computes the same function of the argument segment
`[value, upper, lower]`. -/
theorem clamp_pops_lower_upper_value (env : Env) (fuel : ℕ) (lo up v : ℚ) (S : List ℚ)
    (vars regs : List ℚ) (sim : Sim) (d : Bool) :
    runTokens env (fuel+2) [Tok.op .clamp] 0 ⟨lo :: up :: v :: S, vars, regs, sim, d⟩ =
      .ok ⟨max lo (min up v) :: S, vars, regs, sim, d⟩ ∧
    applyStep .clamp [v, up, lo] = max lo (min up v) := by
  constructor
  · simp [runTokens, evalOpStack]
  · rfl

/-- C7: invoking a function whose declared arity exceeds the stack height
fails with the arity-mismatch error before anything is popped: the `.fail`
outcome is produced by the guard alone, with no recursive body evaluation and
no state handed on (so no value is popped and no register or external
variable is changed by the invocation). -/
theorem fn_arity_mismatch_fails (env : Env) (fuel i : ℕ) (toks : List Tok) (σ : St)
    (nm : String) (f : Fn) (h1 : toks[i]? = some (Tok.fn nm))
    (h2 : fnLookup env.fns nm = some f) (h3 : σ.stack.length < f.params) :
    runTokens env (fuel+1) toks i σ = .fail := by
  simp [runTokens, h1, h2, h3]

/-- C7 witness: a function of arity 2 invoked on a one-element stack fails. -/
theorem fn_arity_mismatch_fails_witness :
    ([Tok.fn "f2"][0]? = some (Tok.fn "f2") ∧
      fnLookup [⟨"f2", 2, []⟩] "f2" = some ⟨"f2", 2, []⟩ ∧
      (St.mk [1] zeros10 zeros10 sim0 false).stack.length < (Fn.mk "f2" 2 []).params) ∧
    runTokens ⟨[⟨"f2", 2, []⟩], [], fun _ => none⟩ 4 [Tok.fn "f2"] 0
      ⟨[1], zeros10, zeros10, sim0, false⟩ = .fail :=
  ⟨⟨by decide, by decide, by decide⟩,
    fn_arity_mismatch_fails ⟨[⟨"f2", 2, []⟩], [], fun _ => none⟩ 3 0 [Tok.fn "f2"]
      ⟨[1], zeros10, zeros10, sim0, false⟩ "f2" ⟨"f2", 2, []⟩
      (by decide) (by decide) (by decide)⟩

/-- C6: history holds at most 8 result stacks; after a successful evaluation
the resulting stack is prepended (most-recent-first) and entries beyond 8 are
evicted, except that an expression consisting of exactly one recall token
leaves history unchanged. -/
theorem history_update_spec :
    (∀ (toks : List Tok) (s : List ℚ) (h : List (List ℚ)), h.length ≤ 8 →
      (updateHistory toks s h).length ≤ 8) ∧
    (∀ (ri : ℕ) (si : Option ℕ) (s : List ℚ) (h : List (List ℚ)),
      updateHistory [Tok.recall ri si] s h = h) ∧
    (∀ (toks : List Tok) (s : List ℚ) (h : List (List ℚ)),
      isPureRTokenExpression toks = false → updateHistory toks s h = (s :: h).take 8) := by
  refine ⟨?_, ?_, ?_⟩
  · intro toks s h hh
    unfold updateHistory
    split
    · exact hh
    · exact le_trans (List.length_take_le 8 (s :: h)) (le_refl 8)
  · intro ri si s h
    simp [updateHistory, isPureRTokenExpression]
  · intro toks s h hp
    simp [updateHistory, hp]

/-- C6 witness: the three parts of the history specification at concrete
inputs (a non-recall expression on a history of length 8, a pure recall,
and a non-recall update). -/
theorem history_update_spec_witness :
    (updateHistory [Tok.num 1] [2] (List.replicate 8 [1])).length ≤ 8 ∧
    updateHistory [Tok.recall 2 (some 1)] [3] [[7]] = [[7]] ∧
    updateHistory [Tok.num 1] [2] [[7]] = ([2] :: [[7]]).take 8 :=
  ⟨history_update_spec.1 [Tok.num 1] [2] (List.replicate 8 [1]) (by decide),
    history_update_spec.2.1 2 (some 1) [3] [[7]],
    history_update_spec.2.2 [Tok.num 1] [2] [[7]] (by decide)⟩

/-- Helper for C2: on the single character `{` the tokenizer loop never
advances — the default run scan stops immediately at the brace, an empty
token is appended, and the cursor stays at `0` — so no amount of fuel
completes it. -/
theorem tokLoop_brace_diverges : ∀ (fuel : ℕ) (acc : List (List Char)),
    tokLoop fuel ['{'] 0 acc = none := by
  intro fuel
  induction fuel with
  | zero => intro acc; rfl
  | succ n ih =>
    intro acc
    rw [show tokLoop (n+1) ['{'] 0 acc =
      tokLoop n ['{'] 0 (acc ++ [sliceChars ['{'] 0 0]) from rfl]
    exact ih _

/-- C8 counterexample: `g` has declared arity 1 and the parameter-free body
`7`.  On the call-site stack produced by `5`, precompiling `5 g` gives
`5 7`, which evaluates to the stack `[5, 7]` (top `7`); dynamically invoking
`g` pops the `5` (arity 1) and yields `[7]` — the two strategies disagree for
this parameter-free body. -/
theorem precompile_dynamic_disagree :
    precompileTokens [⟨"g", 1, [Tok.num 7]⟩] 3 [Tok.num 5, Tok.fn "g"] =
      some [Tok.num 5, Tok.num 7] ∧
    evaluateRPN ⟨[⟨"g", 1, [Tok.num 7]⟩], [], fun _ => none⟩ 9
      [Tok.num 5, Tok.num 7] zeros10 sim0 =
      .ok ⟨[7, 5], zeros10, zeros10, sim0, false⟩ ∧
    evaluateRPN ⟨[⟨"g", 1, [Tok.num 7]⟩], [], fun _ => none⟩ 9
      [Tok.num 5, Tok.fn "g"] zeros10 sim0 =
      .ok ⟨[7], zeros10, zeros10, sim0, false⟩ ∧
    ([7, 5] : List ℚ) ≠ [7] := by
  refine ⟨by decide, by decide, by decide, by decide⟩

/-- C8 amended: for every function of declared arity `0` whose body is a pure
number/operator token sequence that evaluates successfully from an empty
stack, the two strategies agree on every call-site stack: precompiling the
call site inlines exactly the body, evaluating the inlined body pushes the
body's results on top of the ambient stack, and dynamically invoking the
function produces the same state. -/
theorem precompile_dynamic_agree_arity0 (env : Env) (nm : String) (f : Fn)
    (S vars regs : List ℚ) (sim : Sim) (d : Bool) (R : List ℚ) (fuel1 fuel2 fuel3 : ℕ)
    (hf : fnLookup env.fns nm = some f) (h0 : f.params = 0)
    (hpure : ∀ t ∈ f.body, pureTok t = true)
    (hbody : evalPure f.body [] = some R) :
    precompileTokens env.fns (fuel1+2) [Tok.fn nm] = some f.body ∧
    runTokens env (fuel2 + f.body.length + 1) f.body 0 ⟨S, vars, regs, sim, d⟩ =
      .ok ⟨R ++ S, vars, regs, sim, d⟩ ∧
    runTokens env (fuel3 + f.body.length + 2) [Tok.fn nm] 0 ⟨S, vars, regs, sim, d⟩ =
      .ok ⟨R ++ S, vars, regs, sim, d⟩ := by
  have hfil : f.body.filter (fun x => match x with | .param _ => false | _ => true) = f.body := by
    apply List.filter_eq_self.mpr
    intro a ha
    rcases pureTok_cases a (hpure a ha) with ⟨q, rfl⟩ | ⟨o, rfl⟩ <;> rfl
  have hframe : evalPure f.body S = some (R ++ S) := by
    have := evalPure_frame f.body [] S R hbody
    simpa using this
  refine ⟨?_, ?_, ?_⟩
  · have hexp := precompileTokens_pure env.fns fuel1 f.body hpure
    simp only [precompileTokens] at hexp
    have hstep : precompileTok env.fns (fuel1+2) (Tok.fn nm) = some f.body := by
      show precompileTok env.fns ((fuel1+1)+1) (Tok.fn nm) = some f.body
      simp only [precompileTok, hf, hfil]
      exact hexp
    simp only [precompileTokens, concatExpand, hstep]
    simp
  · exact runTokens_pure env (fuel2 + f.body.length + 1) f.body 0 S (R ++ S)
      vars regs sim d hpure (Nat.zero_le _) (by omega) (by simpa using hframe)
  · have hsub := runTokens_pure { env with params := fun _ => none }
      (fuel3 + f.body.length + 1) f.body 0 [] R vars (List.replicate 10 0) sim false
      hpure (Nat.zero_le _) (by omega) (by simpa using hbody)
    show runTokens env ((fuel3 + f.body.length + 1) + 1) [Tok.fn nm] 0
      ⟨S, vars, regs, sim, d⟩ = .ok ⟨R ++ S, vars, regs, sim, d⟩
    rw [runTokens_fn_step env (fuel3 + f.body.length + 1) 0 [Tok.fn nm]
      ⟨S, vars, regs, sim, d⟩ nm f rfl hf (by simp [h0])]
    rw [h0]
    simp only [List.take_zero, List.reverse_nil]
    rw [map_substParam_pure [] f.body hpure, hsub]
    simp only [List.drop_zero]
    show runTokens env ((fuel3 + f.body.length) + 1) [Tok.fn nm] 1
      ⟨R ++ S, vars, regs, sim, d⟩ = .ok ⟨R ++ S, vars, regs, sim, d⟩
    simp [runTokens]

/-- C8 witness: the arity-0 function `k` with pure body `2 3 max` agrees
under both strategies on the call-site stack `[9]`. -/
theorem precompile_dynamic_agree_arity0_witness :
    (fnLookup [⟨"k", 0, [Tok.num 2, Tok.num 3, Tok.op .max]⟩] "k" =
        some ⟨"k", 0, [Tok.num 2, Tok.num 3, Tok.op .max]⟩ ∧
      (Fn.mk "k" 0 [Tok.num 2, Tok.num 3, Tok.op .max]).params = 0 ∧
      (∀ t ∈ (Fn.mk "k" 0 [Tok.num 2, Tok.num 3, Tok.op .max]).body, pureTok t = true) ∧
      evalPure (Fn.mk "k" 0 [Tok.num 2, Tok.num 3, Tok.op .max]).body [] = some [3]) ∧
    (precompileTokens [⟨"k", 0, [Tok.num 2, Tok.num 3, Tok.op .max]⟩] 2 [Tok.fn "k"] =
        some [Tok.num 2, Tok.num 3, Tok.op .max] ∧
      runTokens ⟨[⟨"k", 0, [Tok.num 2, Tok.num 3, Tok.op .max]⟩], [], fun _ => none⟩ 4
        [Tok.num 2, Tok.num 3, Tok.op .max] 0 ⟨[9], zeros10, zeros10, sim0, false⟩ =
        .ok ⟨[3, 9], zeros10, zeros10, sim0, false⟩ ∧
      runTokens ⟨[⟨"k", 0, [Tok.num 2, Tok.num 3, Tok.op .max]⟩], [], fun _ => none⟩ 5
        [Tok.fn "k"] 0 ⟨[9], zeros10, zeros10, sim0, false⟩ =
        .ok ⟨[3, 9], zeros10, zeros10, sim0, false⟩) :=
  ⟨⟨by decide, by decide, by decide, by decide⟩,
    precompile_dynamic_agree_arity0
      ⟨[⟨"k", 0, [Tok.num 2, Tok.num 3, Tok.op .max]⟩], [], fun _ => none⟩ "k"
      ⟨"k", 0, [Tok.num 2, Tok.num 3, Tok.op .max]⟩ [9] zeros10 zeros10 sim0 false [3] 0 0 0
      (by decide) (by decide) (by decide) (by decide)⟩

/-- C9: an `if{ } else{ }` construct pops one condition value and executes
exactly one branch.  First conjunct: for any condition `c` and branch values
`a`, `b`, the result is `[a]` when `c ≠ 0` and `[b]` when `c = 0`.  Second
conjunct: with a register store in each branch, only the executed branch's
write occurs (truthiness per `truthy`: any nonzero number is true).  Third
and fourth conjuncts: `1 if{ 11 } else{ 22 }` yields `[11]` and
`0 if{ 11 } else{ 22 }` yields `[22]`. -/
theorem conditional_branch_exclusive :
    (∀ (fuel : ℕ) (c a b : ℚ),
      evaluateRPN env0 (fuel+9)
        [Tok.num c, Tok.ifOpen, Tok.num a, Tok.braceClose,
         Tok.elseOpen, Tok.num b, Tok.braceClose] zeros10 sim0 =
        .ok ⟨[if c = 0 then b else a], zeros10, zeros10, sim0, false⟩) ∧
    (∀ (fuel : ℕ) (c u v : ℚ),
      evaluateRPN env0 (fuel+10)
        [Tok.num c, Tok.ifOpen, Tok.num u, Tok.store 0, Tok.braceClose,
         Tok.elseOpen, Tok.num v, Tok.store 1, Tok.braceClose] zeros10 sim0 =
        .ok ⟨[], if c = 0 then setIdx zeros10 1 v else setIdx zeros10 0 u,
          zeros10, sim0, false⟩) ∧
    evaluateRPN env0 9
      [Tok.num 1, Tok.ifOpen, Tok.num 11, Tok.braceClose,
       Tok.elseOpen, Tok.num 22, Tok.braceClose] zeros10 sim0 =
      .ok ⟨[11], zeros10, zeros10, sim0, false⟩ ∧
    evaluateRPN env0 9
      [Tok.num 0, Tok.ifOpen, Tok.num 11, Tok.braceClose,
       Tok.elseOpen, Tok.num 22, Tok.braceClose] zeros10 sim0 =
      .ok ⟨[22], zeros10, zeros10, sim0, false⟩ := by
  refine ⟨?_, ?_, by decide, by decide⟩
  · intro fuel c a b
    rcases eq_or_ne c 0 with hc | hc
    · subst hc
      simp [evaluateRPN, runTokens, findBlockEnd, findBlockEndGo, sliceToks, truthyQ, zeros10]
    · simp [evaluateRPN, runTokens, findBlockEnd, findBlockEndGo, sliceToks, truthyQ, hc, zeros10]
  · intro fuel c u v
    rcases eq_or_ne c 0 with hc | hc
    · subst hc
      simp [evaluateRPN, runTokens, findBlockEnd, findBlockEndGo, sliceToks, truthyQ, zeros10]
    · simp [evaluateRPN, runTokens, findBlockEnd, findBlockEndGo, sliceToks, truthyQ, hc, zeros10]

/-- C2: the claim that `tokenize` terminates on every input fails — on the
input `"{"` (a stray brace that is not part of `if{`/`else{`) the scan makes
no progress and the loop never terminates, whatever the fuel. -/
theorem tokenize_diverges_on_stray_brace : ∀ fuel : ℕ, tokenize fuel ['{'] = none := by
  intro fuel
  unfold tokenize
  rw [tokLoop_brace_diverges fuel []]
  rfl

end RPN
